import Mathlib

/-!
# Verification of the go-ipfs migration fetcher (`repo/fsrepo/migrations`)

Shallow embedding of `fetch.go` and `versions.go` from the migrations
package, together with the parts of their dependencies that determine
observable behaviour:

* the semantic-version parsing, rendering and comparison of
  `coreos/go-semver` v0.3.0 (`NewVersion`/`Set`, `String`, `Compare`),
  which `DistVersions` relies on;
* Go's `sort.Sort` applied through `semver.Versions`: `goSort` models the
  plain insertion sort that `sort.Sort` runs on slices of fewer than 7
  elements in every Go release (the gap-6 shell pass of pre-1.19 releases
  does nothing there; Go ≥ 1.19 stays a pure insertion sort up to 12), as
  a left-to-right fold inserting each element into the sorted prefix
  before the first strictly-greater element exactly as `insertionSort` in
  `sort.go` does.  For longer slices `sort.Sort` is unstable and promises
  only a sorted permutation, so statements that depend on tie order are
  confined to the short regime; order-insensitive statements (sortedness,
  permutation, the tie-free descending/ascending relation) hold for any
  correct implementation of `sort.Sort`;
* `io.LimitReader` / the `limitReadCloser` wrapper;
* the filesystem / process / transport effects of `FetchBinary`, `fetch`,
  `ipfsFetch`, `httpFetch` and `osWithVariant`, with collaborator results
  (daemon endpoint discovery, HTTP round trips, `ldd` probe output,
  `os.Stat`, temp-dir creation, ...) passed in as explicit oracle values
  and the performed side effects recorded in explicit event traces.

Machine integers are modelled as `Int`/`Nat` with explicit range checks
where Go's `strconv` enforces them.
-/

open List

/-! ## Integer comparators

`coreos/go-semver` compares versions through small comparator functions
returning `-1`, `0` or `1`.  `IsCmp` packages the facts those comparators
satisfy; everything order-theoretic that the sorting claims need
(reflexivity, transitivity, congruence of ties) is derived from it once.
-/

/-- A three-valued comparator that behaves like a total preorder:
its values lie in `{-1,0,1}`, it is antisymmetric under argument swap,
and `≤ 0` is transitive. -/
structure IsCmp {α : Type} (c : α → α → Int) : Prop where
  range : ∀ a b, c a b = -1 ∨ c a b = 0 ∨ c a b = 1
  swap : ∀ a b, c a b = -(c b a)
  le_trans : ∀ a b d, c a b ≤ 0 → c b d ≤ 0 → c a d ≤ 0

/-- `recursiveCompare` on single components: `1` if `a > b`, `-1` if
`a < b`, else `0` (mirrors the integer branch of go-semver). -/
def cmpInt (a b : Int) : Int :=
  if a > b then 1 else if a < b then -1 else 0

/-- Sequencing of comparators: the first that distinguishes wins.  This is
the `if cmp != 0 return cmp else continue` shape used throughout
go-semver's `Compare`. -/
def cmpSeq {α : Type} (c₁ c₂ : α → α → Int) (a b : α) : Int :=
  if c₁ a b ≠ 0 then c₁ a b else c₂ a b

/-- Comparator obtained by first applying a key function. -/
def cmpOn {α β : Type} (c : β → β → Int) (f : α → β) (a b : α) : Int :=
  c (f a) (f b)

/-- Lexicographic lift of a comparator to lists, with a shorter list
sorting before any proper extension.  This is the recursion shape of both
`recursiveCompare` and `recursivePreReleaseCompare` in go-semver. -/
def lexCmp {α : Type} (c : α → α → Int) : List α → List α → Int
  | [], [] => 0
  | [], _ :: _ => -1
  | _ :: _, [] => 1
  | a :: as, b :: bs => if c a b ≠ 0 then c a b else lexCmp c as bs

/-! ## Go's `sort.Sort` on short slices: insertion sort

`DistVersions` sorts with `sort.Sort(semver.Versions(vers))` (or
`sort.Sort(sort.Reverse(...))`).  `insertionSort` in Go's `sort.go` walks
the slice left to right and swaps the new element towards the front while
it is strictly `Less` than its predecessor, i.e. it inserts each element
into the sorted prefix immediately before the first strictly-greater
element.  `goInsert`/`goSort` model exactly that; `sort.Reverse` flips the
argument order of `Less`, modelled by `flipCmp`.

`goSort` coincides with `sort.Sort` exactly on slices of fewer than 7
elements (all Go releases; up to 12 on Go ≥ 1.19): above that, pre-1.19
releases run a gap-6 shell pass before the insertion sort and newer ones
switch to pdqsort, both of which may reorder equal elements.  `sort.Sort`
is documented as unstable, so only the sorted-permutation consequences of
`goSort` — never its tie order — transfer to the program beyond that
bound. -/

/-- Insert `x` into `l` before the first element `b` with `c x b < 0`
(Go's inner swap loop of `insertionSort`, given a sorted `l`). -/
def goInsert {α : Type} (c : α → α → Int) (x : α) : List α → List α
  | [] => [x]
  | b :: l => if c x b < 0 then x :: b :: l else b :: goInsert c x l

/-- The insertion sort that `sort.Sort` runs on slices of fewer than 7
elements (in every Go release): fold the input left to right, inserting
each element into the sorted prefix.  On longer inputs this is *not* a
model of `sort.Sort`'s tie order, only of its sorted-permutation
contract. -/
def goSort {α : Type} (c : α → α → Int) (xs : List α) : List α :=
  xs.foldl (fun acc x => goInsert c x acc) []

/-- `sort.Reverse`: swap the arguments of `Less`. -/
def flipCmp {α : Type} (c : α → α → Int) (a b : α) : Int := c b a

/-! ## go-semver v0.3.0: parsing, rendering, comparison

`versions.go` delegates all version handling to
`github.com/coreos/go-semver/semver`: `NewVersion` (i.e. `Version.Set`),
`Version.String`, and `Versions`' `Less` built on `Version.Compare`.
Strings are modelled as `List Char`; Go indexes bytes, but every character
the parser accepts is ASCII, where bytes and code points agree. -/

/-- ASCII decimal digit. -/
def isDigitChar (ch : Char) : Bool := 48 ≤ ch.toNat && ch.toNat ≤ 57

/-- Characters admitted by go-semver's identifier pattern
`[0-9A-Za-z-]`. -/
def semverIdentChar (ch : Char) : Bool :=
  isDigitChar ch || (65 ≤ ch.toNat && ch.toNat ≤ 90) ||
    (97 ≤ ch.toNat && ch.toNat ≤ 122) || ch == '-'

/-- Digit run to value (the accumulation loop inside `strconv.ParseInt`). -/
def decDigitsVal (cs : List Char) : Nat :=
  cs.foldl (fun acc ch => acc * 10 + (ch.toNat - 48)) 0

/-- `strconv.ParseInt(s, 10, 64)` (also `strconv.Atoi` on 64-bit hosts):
optional single leading sign, then a non-empty run of decimal digits,
value required to fit in a signed 64-bit integer. -/
def goParseInt64 (cs : List Char) : Option Int :=
  let signed : Bool × List Char :=
    match cs with
    | '+' :: rest => (false, rest)
    | '-' :: rest => (true, rest)
    | _ => (false, cs)
  let neg := signed.1
  let digits := signed.2
  if digits.isEmpty then none
  else if !digits.all isDigitChar then none
  else
    let n := decDigitsVal digits
    if neg then
      if n ≤ 9223372036854775808 then some (-(n : Int)) else none
    else
      if n ≤ 9223372036854775807 then some (n : Int) else none

/-- `strings.Split(s, d)` for a one-character separator (`SplitN` with
`n = -1`); `Split("", d) = [""]`. -/
def splitOnChar (d : Char) : List Char → List (List Char)
  | [] => [[]]
  | ch :: rest =>
    let r := splitOnChar d rest
    if ch == d then [] :: r
    else
      match r with
      | [] => [[ch]]
      | p :: ps => (ch :: p) :: ps

/-- `splitOff(&input, delim)` from go-semver: cut the input at the first
occurrence of the delimiter; returns `(remaining, val)` where `val` is
empty when the delimiter does not occur. -/
def goSplitOff (d : Char) (cs : List Char) : List Char × List Char :=
  match cs.dropWhile (fun ch => ch != d) with
  | [] => (cs, [])
  | _ :: post => (cs.takeWhile (fun ch => ch != d), post)

/-- `strings.SplitN(s, d, n)` for `n ≥ 1` and a one-character separator:
at most `n` pieces, the final piece keeping any further separators. -/
def goSplitN (d : Char) : Nat → List Char → List (List Char)
  | 0, _ => []
  | 1, cs => [cs]
  | n + 2, cs =>
    match cs.dropWhile (fun ch => ch != d) with
    | [] => [cs]
    | _ :: post => cs.takeWhile (fun ch => ch != d) :: goSplitN d (n + 1) post

/-- go-semver's `validateIdentifier`: empty, or matching
`^[0-9A-Za-z-]+(\.[0-9A-Za-z-]+)*$` — equivalently, every dot-separated
piece is non-empty and made of identifier characters. -/
def validSemverIdent (cs : List Char) : Bool :=
  cs.isEmpty || (splitOnChar '.' cs).all (fun p => !p.isEmpty && p.all semverIdentChar)

/-- go-semver's `Version`: three 64-bit components plus pre-release and
build-metadata identifier strings. -/
structure GoSemver where
  major : Int
  minor : Int
  patch : Int
  preRelease : List Char
  metadata : List Char
deriving Repr, DecidableEq

/-- `semver.NewVersion` / `Version.Set`: split off build metadata at the
first `+`, then the pre-release at the first `-`, require exactly three
dot-separated components, validate both identifier strings, and parse the
components as signed 64-bit decimals. -/
def newSemverVersion (cs : List Char) : Option GoSemver :=
  let sm := goSplitOff '+' cs
  let metadata := sm.2
  let sp := goSplitOff '-' sm.1
  let pre := sp.2
  let dotParts := goSplitN '.' 3 sp.1
  if dotParts.length ≠ 3 then none
  else if !validSemverIdent pre then none
  else if !validSemverIdent metadata then none
  else
    match dotParts with
    | [p0, p1, p2] =>
      match goParseInt64 p0, goParseInt64 p1, goParseInt64 p2 with
      | some a, some b, some p => some ⟨a, b, p, pre, metadata⟩
      | _, _, _ => none
    | _ => none

/-- The character `'0' + d` for a decimal digit `d`. -/
def digitToChar : Nat → Char
  | 0 => '0' | 1 => '1' | 2 => '2' | 3 => '3' | 4 => '4'
  | 5 => '5' | 6 => '6' | 7 => '7' | 8 => '8' | _ => '9'

/-- Decimal digits of a positive number, least significant first.  The
first argument is recursion fuel; `n` itself is always enough since a
number never has more decimal digits than its own value. -/
def natToCharsRevAux : Nat → Nat → List Char
  | 0, _ => []
  | fuel + 1, n =>
    if n = 0 then [] else digitToChar (n % 10) :: natToCharsRevAux fuel (n / 10)

/-- `%d` of a natural number. -/
def natToChars (n : Nat) : List Char :=
  if n = 0 then ['0'] else (natToCharsRevAux n n).reverse

/-- `%d` of an `int64`. -/
def intToChars (i : Int) : List Char :=
  if i < 0 then '-' :: natToChars i.natAbs else natToChars i.natAbs

/-- `Version.String()`: `major.minor.patch`, then `-preRelease` when
non-empty, then `+metadata` when non-empty. -/
def renderSemver (v : GoSemver) : List Char :=
  intToChars v.major ++ '.' :: intToChars v.minor ++ '.' :: intToChars v.patch
    ++ (if v.preRelease.isEmpty then [] else '-' :: v.preRelease)
    ++ (if v.metadata.isEmpty then [] else '+' :: v.metadata)

/-- Go byte comparison of (ASCII) strings, as `a < b` / `a > b` uses. -/
def charListCmp : List Char → List Char → Int :=
  lexCmp (cmpOn cmpInt (fun ch : Char => (ch.toNat : Int)))

/-- The numeric rules at the head of one `recursivePreReleaseCompare`
step: a numeric identifier (per `strconv.Atoi`) sorts below a
non-numeric one, and two numeric identifiers compare by value; the
remaining cases (both non-numeric, or numeric with equal values) are
left undecided for the string comparison that follows. -/
def semverIdentNumCmp (a b : List Char) : Int :=
  match goParseInt64 a, goParseInt64 b with
  | some x, some y => cmpInt x y
  | some _, none => -1
  | none, some _ => 1
  | none, none => 0

/-- One step of `recursivePreReleaseCompare`: the numeric rules first;
whenever they return nothing — both identifiers non-numeric, or numeric
with *equal* values — the function falls through to the unguarded
byte-string comparison (`a > b` / `a < b`), so textually different
identifiers such as `01` and `1` or `-0` and `0` are still ordered
strictly by their text; only textually identical identifiers reach the
recursion on the next pair. -/
def semverIdentCmp : List Char → List Char → Int :=
  cmpSeq semverIdentNumCmp charListCmp

/-- `preReleaseCompare`: an absent pre-release outranks any present one;
two present ones compare identifier-by-identifier, a shorter list losing
ties (`recursivePreReleaseCompare`). -/
def semverPreReleaseCmp (a b : GoSemver) : Int :=
  if a.preRelease.isEmpty && !b.preRelease.isEmpty then 1
  else if b.preRelease.isEmpty && !a.preRelease.isEmpty then -1
  else if !a.preRelease.isEmpty && !b.preRelease.isEmpty then
    lexCmp semverIdentCmp (splitOnChar '.' a.preRelease) (splitOnChar '.' b.preRelease)
  else 0

/-- `recursiveCompare(v.Slice(), vB.Slice())`: major, then minor, then
patch. -/
def semverSliceCmp : GoSemver → GoSemver → Int :=
  cmpSeq (cmpOn cmpInt GoSemver.major)
    (cmpSeq (cmpOn cmpInt GoSemver.minor) (cmpOn cmpInt GoSemver.patch))

/-- `Version.Compare`: the component comparison, then the pre-release
comparison; build metadata never participates. -/
def semverCompare : GoSemver → GoSemver → Int :=
  cmpSeq semverSliceCmp semverPreReleaseCmp

/-! ## `DistVersions` and `LatestDistVersion` (versions.go)

The network fetch and `bufio.Scanner` framing are factored out: the model
takes the scanned lines of the `versions` resource as input (`DistVersions`
fails wholesale on transport or scanner errors, which is the `fetch` model's
territory; a malformed *line* never produces such an error). -/

/-- `strings.TrimLeft(line, "v")`: remove *every* leading `v`. -/
def trimLeftV (cs : List Char) : List Char := cs.dropWhile (fun ch => ch == 'v')

/-- The scan loop of `DistVersions`: parse each line after trimming, keep
the successes in input order, drop failures silently. -/
def parsedDistVersions (lines : List (List Char)) : List GoSemver :=
  lines.filterMap (fun l => newSemverVersion (trimLeftV l))

/-- `semver.Versions.Less`, as handed to `sort.Sort`. -/
def semverLess (a b : GoSemver) : Bool := semverCompare a b < 0

/-- The pure core of `DistVersions(ctx, dist, sortDesc)` applied to the
scanned lines: parse, sort ascending (or with the reversed comparator when
`sortDesc`), then render each version as `"v" + String()`. -/
def distVersionsPure (lines : List (List Char)) (sortDesc : Bool) : List (List Char) :=
  let vers := parsedDistVersions lines
  let sorted := if sortDesc then goSort (flipCmp semverCompare) vers else goSort semverCompare vers
  sorted.map (fun v => 'v' :: renderSemver v)

/-- `strings.Contains(s, sub)`. -/
def containsSub (sub : List Char) : List Char → Bool
  | [] => sub.isEmpty
  | ch :: rest => ((ch :: rest).take sub.length == sub) || containsSub sub rest

/-- The scan of `LatestDistVersion`: walk the ascending list from its end
and return the first entry not containing `"-dev"`. -/
def latestNonDev (vs : List (List Char)) : Option (List Char) :=
  vs.reverse.find? (fun v => !containsSub ['-', 'd', 'e', 'v'] v)

/-- The selection step of `LatestDistVersion` applied to an ascending
version list: the backwards scan's result, or the
`could not find a non dev version` error. -/
def latestDistScan (vs : List (List Char)) : Except String (List Char) :=
  match latestNonDev vs with
  | some v => .ok v
  | none => .error "could not find a non dev version"

/-- `LatestDistVersion` on the scanned lines of the versions resource:
`DistVersions` ascending, then the backwards scan. -/
def latestDistVersionPure (lines : List (List Char)) : Except String (List Char) :=
  latestDistScan (distVersionsPure lines false)

/-! ## The transports (`fetch`, `ipfsFetch`, `httpFetch`) and the
512 MiB limit wrapper

Collaborator outcomes (endpoint discovery, shell liveness, RPC response,
HTTP round trip) are oracle fields; the underlying byte source is the
abstract type `σ` so that stream identity is meaningful.  `fetch` also
returns the list of transport attempts it performed, in order. -/

/-- `gatewayURL` from fetch.go. -/
def gatewayURL : String := "https://ipfs.io"

/-- `fetchSizeLimit` from fetch.go (`1024 * 1024 * 512`, an `int64`). -/
def fetchSizeLimit : Int := 1024 * 1024 * 512

/-- `io.LimitedReader` (the result of `io.LimitReader(rc, limit)`): reads
from `r` but stops with end-of-data after `n` bytes. -/
structure GoLimitedReader (σ : Type) where
  r : σ
  n : Int

/-- The `limitReadCloser` struct of fetch.go: an embedded `io.Reader`
(always an `io.LimitReader` here) plus the embedded `io.Closer`, which
`newLimitReadCloser` points at the *underlying* stream. -/
structure LimitReadCloser (σ : Type) where
  reader : GoLimitedReader σ
  closer : σ

/-- `newLimitReadCloser(rc, limit)`: wrap `rc` in a `LimitReader` for
reading, and keep `rc` itself as the closer. -/
def newLimitReadCloser {σ : Type} (rc : σ) (limit : Int) : LimitReadCloser σ :=
  { reader := { r := rc, n := limit }, closer := rc }

/-- A concrete byte source: an identity plus its full contents. -/
structure ByteSource where
  srcId : Nat
  data : List UInt8
deriving Repr, DecidableEq

/-- Draining a limit-wrapped byte source: `io.LimitedReader` yields bytes
of the underlying source until either it is exhausted or `n` bytes have
been delivered. -/
def lrcReadAll (l : LimitReadCloser ByteSource) : List UInt8 :=
  l.reader.r.data.take l.reader.n.toNat

/-- One bounded read of at most `k` bytes, returning the bytes and the
advanced wrapper state (the closer is untouched by reading). -/
def lrcRead (l : LimitReadCloser ByteSource) (k : Nat) :
    List UInt8 × LimitReadCloser ByteSource :=
  let m := min k l.reader.n.toNat
  (l.reader.r.data.take m,
   { reader := { r := { srcId := l.reader.r.srcId, data := l.reader.r.data.drop m },
                 n := l.reader.n - m },
     closer := l.closer })

/-- `limitReadCloser.Close()` resolves to the embedded closer, i.e. it
closes exactly this source. -/
def lrcClose {σ : Type} (l : LimitReadCloser σ) : σ := l.closer

/-- The RPC response of the daemon shell (`sh.Request("cat", p).Send`):
an optional RPC-level error field plus the output stream. -/
structure ShellResp (σ : Type) where
  err : Option String
  output : σ

/-- Oracle for one run of `ipfsFetch`: result of `ApiEndpoint("")`
(daemon endpoint discovery, defined outside this package), `sh.IsUp()`,
and the `Send` round trip. -/
structure DaemonEnv (σ : Type) where
  apiEndpoint : Except String String
  isUp : Bool
  send : Except String (ShellResp σ)

/-- `ipfsFetch(ctx, ipfsPath)`: resolve the endpoint, require the shell
up, issue the request, treat a set RPC error field as failure, and wrap a
successful output stream with the size limit. -/
def ipfsFetch {σ : Type} (env : DaemonEnv σ) : Except String (LimitReadCloser σ) :=
  match env.apiEndpoint with
  | .error e => .error e
  | .ok _ =>
    if !env.isUp then .error "ipfs api shell not up"
    else
      match env.send with
      | .error e => .error e
      | .ok resp =>
        match resp.err with
        | some e => .error e
        | none => .ok (newLimitReadCloser resp.output fetchSizeLimit)

/-- An HTTP response: status plus body stream, with the result of
draining the body for the ≥ 400 diagnostic path. -/
structure HttpResp (σ : Type) where
  statusCode : Nat
  status : String
  body : σ
  bodyText : Except String String

/-- Oracle for one run of `httpFetch`: request construction and the
`http.DefaultClient.Do` round trip. -/
structure HttpEnv (σ : Type) where
  newReqErr : Option String
  doResult : Except String (HttpResp σ)

/-- `httpFetch(ctx, url)`: build the request, perform it, turn a status
≥ 400 into an error carrying the drained body text, and wrap a successful
body with the size limit. -/
def httpFetch {σ : Type} (env : HttpEnv σ) (url : String) :
    Except String (LimitReadCloser σ) :=
  match env.newReqErr with
  | some e => .error ("http.NewRequest error: " ++ e)
  | none =>
    match env.doResult with
    | .error e => .error ("http.DefaultClient.Do error: " ++ e)
    | .ok resp =>
      if resp.statusCode ≥ 400 then
        match resp.bodyText with
        | .error e => .error ("error reading error body: " ++ e)
        | .ok mes =>
          .error ("GET " ++ url ++ " error: " ++ resp.status ++ ": " ++ mes)
      else .ok (newLimitReadCloser resp.body fetchSizeLimit)

/-- One transport attempt performed by `fetch`, in order. -/
inductive TransportAttempt
  | daemon
  | httpGet (url : String)
deriving Repr, DecidableEq

/-- `fetch(ctx, ipfsPath)`: try the local daemon; only if that fails,
make the single HTTP attempt against `gatewayURL + ipfsPath` and return
its result as the overall result.  The second component records the
attempts made. -/
def fetch {σ : Type} (denv : DaemonEnv σ) (henv : HttpEnv σ) (ipfsPath : String) :
    Except String (LimitReadCloser σ) × List TransportAttempt :=
  match ipfsFetch denv with
  | .ok rc => (.ok rc, [.daemon])
  | .error _ =>
    (httpFetch henv (gatewayURL ++ ipfsPath), [.daemon, .httpGet (gatewayURL ++ ipfsPath)])

/-! ## Path joining (`path.Join` / `path.Clean`) -/

/-- Element processing of `path.Clean`: `.` and empty elements vanish,
`..` pops a non-`..` stack entry, is dropped at the root when `rooted`,
and is kept otherwise.  The accumulator holds processed elements in
reverse. -/
def cleanElems (rooted : Bool) : List (List Char) → List (List Char) → List (List Char)
  | acc, [] => acc.reverse
  | acc, e :: rest =>
    if e = [] ∨ e = ['.'] then cleanElems rooted acc rest
    else if e = ['.', '.'] then
      match acc with
      | [] => if rooted then cleanElems rooted [] rest else cleanElems rooted [['.', '.']] rest
      | top :: acc' =>
        if top = ['.', '.'] then cleanElems rooted (e :: acc) rest
        else cleanElems rooted acc' rest
    else cleanElems rooted (e :: acc) rest

/-- `path.Clean` for slash-separated pure paths. -/
def goPathClean (s : String) : String :=
  match s.toList with
  | [] => "."
  | ch :: rest =>
    let rooted := ch == '/'
    let elems := cleanElems rooted [] (splitOnChar '/' (ch :: rest))
    let joined := (elems.map (fun e => String.mk e)).intersperse "/"
    let body := String.join joined
    if rooted then String.mk ('/' :: body.toList)
    else if body = "" then "." else body

/-- `path.Join(a, b)`: drop empty elements, join with `/`, `Clean`; all
elements empty gives `""`. -/
def goPathJoin (a b : String) : String :=
  match [a, b].filter (fun e => e ≠ "") with
  | [] => ""
  | parts => goPathClean (String.join (parts.intersperse "/"))

/-! ## Name formatting (`makeArchiveName`, `makeIpfsPath`) -/

/-- The `%s`-only fragment of `fmt.Sprintf`: copy the format verbatim,
substituting each `%s` verb with the next operand (Go would print a
`%!s(MISSING)` marker if operands ran out; both call sites supply all). -/
def sprintfS : List Char → List String → List Char
  | [], _ => []
  | '%' :: 's' :: rest, a :: args => a.toList ++ sprintfS rest args
  | '%' :: 's' :: rest, [] => "%!s(MISSING)".toList ++ sprintfS rest []
  | ch :: rest, args => ch :: sprintfS rest args

/-- `makeArchiveName(name, ver, atype)`:
`fmt.Sprintf("%s_%s_%s-%s.%s", name, ver, runtime.GOOS, runtime.GOARCH, atype)`.
The host platform strings are explicit arguments here. -/
def makeArchiveName (name ver goos goarch atype : String) : String :=
  String.mk (sprintfS "%s_%s_%s-%s.%s".toList [name, ver, goos, goarch, atype])

/-- `makeIpfsPath(dist, ver, arcName)`:
`fmt.Sprintf("%s/%s/%s/%s", ipfsDistPath, dist, ver, arcName)`.
`ipfsDistPath` is declared outside the two embedded files, so the
distribution root is an explicit argument. -/
def makeIpfsPath (ipfsDistPath dist ver arcName : String) : String :=
  String.mk (sprintfS "%s/%s/%s/%s".toList [ipfsDistPath, dist, ver, arcName])

/-- Modelled from the spec: `exeName` is declared outside the two
embedded files; per the spec the binary base name "is platform-suffixed
(`.exe` on the Windows platform)". -/
def exeName (goos : String) (name : String) : String :=
  if goos = "windows" then name ++ ".exe" else name

/-! ## `osWithVariant` -/

/-- `strings.Contains(s, "musl")`'s needle. -/
def muslChars : List Char := ['m', 'u', 's', 'l']

/-- `osWithVariant()`: every non-Linux host returns `runtime.GOOS`
untouched; on Linux the probe `sh -c "ldd --version || true"` runs (the
`|| true` deliberately suppresses the probe's non-zero exit status, so
`CombinedOutput` only errors when the command itself cannot be invoked),
and `"linux-musl"` is reported exactly when some scanned line of the
combined stdout+stderr contains `"musl"`.  The oracle `probe` is that
invocation's outcome: launch error, or scanned output lines.  The second
component records whether the probe ran. -/
def osWithVariant (goos : String) (probe : Except String (List (List Char))) :
    Except String String × Bool :=
  if goos ≠ "linux" then (.ok goos, false)
  else
    match probe with
    | .error e => (.error e, true)
    | .ok outLines =>
      if outLines.any (fun l => containsSub muslChars l) then (.ok "linux-musl", true)
      else (.ok "linux", true)

/-! ## `FetchBinary`

Outcomes of the fallible steps (`os.Stat`, `ioutil.TempDir`, `os.Create`,
`fetch`, `io.Copy`, `unpackArchive`, `os.Chmod`) are oracle fields, and
the filesystem/network side effects actually performed are returned as an
ordered trace.  `unpackArchive` is declared outside the two embedded
files; modelled from the spec: it "extracts exactly one named file from
the archive" and "writes to the destination happen only after the source
entry is fully validated to exist", so a failing unpack emits no
destination write and a successful one writes exactly the destination. -/

/-- Outcome of `os.Stat(out)` as `FetchBinary` distinguishes it. -/
inductive StatRes
  | notExist
  | statFail (e : String)
  | isFile
  | isDir
deriving Repr, DecidableEq

/-- The errors `FetchBinary` returns, by failing step.
`alreadyExists` is the `&os.PathError{Op: "FetchBinary", Path: out,
Err: os.ErrExist}` value. -/
inductive FBErr
  | statErr (e : String)
  | alreadyExists (op path : String)
  | tempDirErr (e : String)
  | createErr (e : String)
  | fetchErr (e : String)
  | copyErr (e : String)
  | unpackErr (e : String)
  | chmodErr (e : String)
deriving Repr, DecidableEq

/-- Side effects of one `FetchBinary` run, in execution order. -/
inductive FsEvent
  | tempDirCreated (dir : String)
  | fileCreated (path : String)
  | fetchAttempted (ipfsPath : String)
  | archiveWritten (path : String)
  | binaryWritten (path : String)
  | chmodded (path : String)
  | removedAll (dir : String)
deriving Repr, DecidableEq

/-- Oracle for one `FetchBinary` run. -/
structure FetchBinaryEnv where
  goos : String
  goarch : String
  ipfsDistPath : String
  stat : StatRes
  tempDir : Except String String
  createRes : Option String
  fetchRes : Option String
  copyRes : Option String
  unpackRes : Option String
  chmodRes : Option String

/-- `FetchBinary` after the output-disposition check, with `out1` the
resolved final path: create the temp dir (its `defer os.RemoveAll` makes
`removedAll` the last event of every later exit), create the archive file
inside it, fetch, copy the download into the archive file, unpack the one
binary to `out1`, make it executable. -/
def fetchBinaryStaged (env : FetchBinaryEnv) (dist ver arcName1 out1 : String) :
    Except FBErr String × List FsEvent :=
  match env.tempDir with
  | .error e => (.error (.tempDirErr e), [])
  | .ok tmpDir =>
    let atype := if env.goos = "windows" then "zip" else "tar.gz"
    let arcName2 := makeArchiveName arcName1 ver env.goos env.goarch atype
    let arcIpfsPath := makeIpfsPath env.ipfsDistPath dist ver arcName2
    let arcPath := goPathJoin tmpDir arcName2
    match env.createRes with
    | some e => (.error (.createErr e), [.tempDirCreated tmpDir, .removedAll tmpDir])
    | none =>
      match env.fetchRes with
      | some e =>
        (.error (.fetchErr e),
         [.tempDirCreated tmpDir, .fileCreated arcPath, .fetchAttempted arcIpfsPath,
          .removedAll tmpDir])
      | none =>
        match env.copyRes with
        | some e =>
          (.error (.copyErr e),
           [.tempDirCreated tmpDir, .fileCreated arcPath, .fetchAttempted arcIpfsPath,
            .archiveWritten arcPath, .removedAll tmpDir])
        | none =>
          match env.unpackRes with
          | some e =>
            (.error (.unpackErr e),
             [.tempDirCreated tmpDir, .fileCreated arcPath, .fetchAttempted arcIpfsPath,
              .archiveWritten arcPath, .removedAll tmpDir])
          | none =>
            match env.chmodRes with
            | some e =>
              (.error (.chmodErr e),
               [.tempDirCreated tmpDir, .fileCreated arcPath, .fetchAttempted arcIpfsPath,
                .archiveWritten arcPath, .binaryWritten out1, .removedAll tmpDir])
            | none =>
              (.ok out1,
               [.tempDirCreated tmpDir, .fileCreated arcPath, .fetchAttempted arcIpfsPath,
                .archiveWritten arcPath, .binaryWritten out1, .chmodded out1,
                .removedAll tmpDir])

/-- `FetchBinary(ctx, dist, ver, arcName, binName, out)`: default the
archive and binary base names, platform-suffix the binary name, resolve
the output disposition from `os.Stat(out)` (existing regular file is an
immediate `ErrExist`, a directory redirects the output into it, any other
stat failure propagates), then stage, download and unpack. -/
def FetchBinary (env : FetchBinaryEnv) (dist ver arcName binName out : String) :
    Except FBErr String × List FsEvent :=
  let arcName1 := if arcName = "" then dist else arcName
  let binName1 := if binName = "" then arcName1 else binName
  let binName2 := exeName env.goos binName1
  match env.stat with
  | .statFail e => (.error (.statErr e), [])
  | .isFile => (.error (.alreadyExists "FetchBinary" out), [])
  | .notExist => fetchBinaryStaged env dist ver arcName1 out
  | .isDir => fetchBinaryStaged env dist ver arcName1 (goPathJoin out binName2)

/-! ## Proof development -/

theorem IsCmp.refl {α : Type} {c : α → α → Int} (h : IsCmp c) (a : α) : c a a = 0 := by
  have := h.swap a a
  omega

theorem IsCmp.lt_le_trans {α : Type} {c : α → α → Int} (h : IsCmp c) (a b d : α)
    (h1 : c a b < 0) (h2 : c b d ≤ 0) : c a d < 0 := by
  by_contra hn
  have hda : c d a ≤ 0 := by have := h.swap a d; omega
  have hba : c b a ≤ 0 := h.le_trans b d a h2 hda
  have := h.swap a b
  omega

theorem IsCmp.le_lt_trans {α : Type} {c : α → α → Int} (h : IsCmp c) (a b d : α)
    (h1 : c a b ≤ 0) (h2 : c b d < 0) : c a d < 0 := by
  by_contra hn
  have hda : c d a ≤ 0 := by have := h.swap a d; omega
  have hdb : c d b ≤ 0 := h.le_trans d a b hda h1
  have := h.swap b d
  omega

/-- Ties substitute on the left: if `c a b = 0` then `a` and `b` compare
the same way against anything. -/
theorem IsCmp.congr_left {α : Type} {c : α → α → Int} (h : IsCmp c) (a b d : α)
    (hab : c a b = 0) : c a d = c b d := by
  have hba : c b a = 0 := by have := h.swap a b; omega
  have h1 : c a d ≤ 0 → c b d ≤ 0 := fun hle => h.le_trans b a d (by omega) hle
  have h2 : c b d ≤ 0 → c a d ≤ 0 := fun hle => h.le_trans a b d (by omega) hle
  have h3 : c d a ≤ 0 → c d b ≤ 0 := fun hle => h.le_trans d a b hle (by omega)
  have h4 : c d b ≤ 0 → c d a ≤ 0 := fun hle => h.le_trans d b a hle (by omega)
  have hsad := h.swap a d
  have hsbd := h.swap b d
  rcases h.range a d with had | had | had <;> rcases h.range b d with hbd | hbd | hbd <;> omega

theorem IsCmp.congr_right {α : Type} {c : α → α → Int} (h : IsCmp c) (a b d : α)
    (hbd : c b d = 0) : c a b = c a d := by
  have := h.congr_left b d a hbd
  have hs1 := h.swap a b
  have hs2 := h.swap a d
  omega

theorem isCmp_cmpInt : IsCmp cmpInt := by
  constructor
  · intro a b
    simp only [cmpInt]
    split_ifs <;> omega
  · intro a b
    simp only [cmpInt]
    split_ifs <;> omega
  · intro a b d
    simp only [cmpInt]
    split_ifs <;> omega

theorem isCmp_cmpSeq {α : Type} {c₁ c₂ : α → α → Int}
    (h₁ : IsCmp c₁) (h₂ : IsCmp c₂) : IsCmp (cmpSeq c₁ c₂) := by
  constructor
  · intro a b
    simp only [cmpSeq]
    split_ifs
    · exact h₁.range a b
    · exact h₂.range a b
  · intro a b
    simp only [cmpSeq]
    have hs₁ := h₁.swap a b
    have hs₂ := h₂.swap a b
    split_ifs <;> omega
  · intro a b d hab hbd
    simp only [cmpSeq] at *
    by_cases e1 : c₁ a b = 0 <;> by_cases e2 : c₁ b d = 0 <;> simp [e1, e2] at hab hbd
    · -- both first-level ties
      have had : c₁ a d = 0 := by
        have := h₁.congr_left a b d e1
        omega
      simp [had]
      exact h₂.le_trans a b d hab hbd
    · -- c₁ a b = 0, c₁ b d < 0
      have h3 : c₁ a d = c₁ b d := h₁.congr_left a b d e1
      have : c₁ b d < 0 := by rcases h₁.range b d with h | h | h <;> omega
      have had : c₁ a d ≠ 0 := by omega
      simp [had]
      omega
    · -- c₁ a b < 0, c₁ b d = 0
      have h3 : c₁ a b = c₁ a d := h₁.congr_right a b d e2
      have : c₁ a b < 0 := by rcases h₁.range a b with h | h | h <;> omega
      have had : c₁ a d ≠ 0 := by omega
      simp [had]
      omega
    · -- both strict
      have hab' : c₁ a b < 0 := by rcases h₁.range a b with h | h | h <;> omega
      have hbd' : c₁ b d < 0 := by rcases h₁.range b d with h | h | h <;> omega
      have had : c₁ a d < 0 := h₁.lt_le_trans a b d hab' (by omega)
      have : c₁ a d ≠ 0 := by omega
      simp [this]
      omega

theorem isCmp_cmpOn {α β : Type} {c : β → β → Int} (h : IsCmp c) (f : α → β) :
    IsCmp (cmpOn c f) :=
  ⟨fun a b => h.range (f a) (f b), fun a b => h.swap (f a) (f b),
   fun a b d => h.le_trans (f a) (f b) (f d)⟩

theorem lexCmp_range {α : Type} {c : α → α → Int} (h : IsCmp c) :
    ∀ as bs, lexCmp c as bs = -1 ∨ lexCmp c as bs = 0 ∨ lexCmp c as bs = 1
  | [], [] => by simp [lexCmp]
  | [], _ :: _ => by simp [lexCmp]
  | _ :: _, [] => by simp [lexCmp]
  | a :: as, b :: bs => by
    simp only [lexCmp]
    split_ifs
    · exact h.range a b
    · exact lexCmp_range h as bs

theorem lexCmp_swap {α : Type} {c : α → α → Int} (h : IsCmp c) :
    ∀ as bs, lexCmp c as bs = -(lexCmp c bs as)
  | [], [] => by simp [lexCmp]
  | [], _ :: _ => by simp [lexCmp]
  | _ :: _, [] => by simp [lexCmp]
  | a :: as, b :: bs => by
    simp only [lexCmp]
    have hs := h.swap a b
    split_ifs with h1 h2 h2 <;> try omega
    exact lexCmp_swap h as bs

theorem lexCmp_le_trans {α : Type} {c : α → α → Int} (h : IsCmp c) :
    ∀ as bs ds, lexCmp c as bs ≤ 0 → lexCmp c bs ds ≤ 0 → lexCmp c as ds ≤ 0
  | [], bs, ds => by
    intro _ _
    cases ds <;> simp [lexCmp]
  | _ :: _, [], _ => by
    intro h1 _
    simp [lexCmp] at h1
  | _ :: _, _ :: _, [] => by
    intro _ h2
    simp [lexCmp] at h2
  | a :: as, b :: bs, d :: ds => by
    intro h1 h2
    simp only [lexCmp] at h1 h2 ⊢
    by_cases e1 : c a b = 0 <;> by_cases e2 : c b d = 0 <;> simp [e1, e2] at h1 h2
    · have had : c a d = 0 := by have := h.congr_left a b d e1; omega
      simp [had]
      exact lexCmp_le_trans h as bs ds h1 h2
    · have h3 : c a d = c b d := h.congr_left a b d e1
      have : c b d < 0 := by rcases h.range b d with hh | hh | hh <;> omega
      have had : c a d ≠ 0 := by omega
      simp [had]
      omega
    · have h3 : c a b = c a d := h.congr_right a b d e2
      have : c a b < 0 := by rcases h.range a b with hh | hh | hh <;> omega
      have had : c a d ≠ 0 := by omega
      simp [had]
      omega
    · have hab' : c a b < 0 := by rcases h.range a b with hh | hh | hh <;> omega
      have hbd' : c b d < 0 := by rcases h.range b d with hh | hh | hh <;> omega
      have had : c a d < 0 := h.lt_le_trans a b d hab' (by omega)
      have : c a d ≠ 0 := by omega
      simp [this]
      omega

theorem isCmp_lexCmp {α : Type} {c : α → α → Int} (h : IsCmp c) : IsCmp (lexCmp c) :=
  ⟨lexCmp_range h, lexCmp_swap h, lexCmp_le_trans h⟩

theorem isCmp_flipCmp {α : Type} {c : α → α → Int} (h : IsCmp c) : IsCmp (flipCmp c) := by
  constructor
  · intro a b
    rcases h.range b a with h' | h' | h' <;> simp [flipCmp, h']
  · intro a b
    have := h.swap b a
    simp [flipCmp]
    omega
  · intro a b d h1 h2
    exact h.le_trans d b a h2 h1

theorem goInsert_perm {α : Type} (c : α → α → Int) (x : α) :
    ∀ l : List α, goInsert c x l ~ x :: l
  | [] => List.Perm.refl _
  | b :: l => by
    simp only [goInsert]
    split_ifs
    · exact List.Perm.refl _
    · exact ((goInsert_perm c x l).cons b).trans (List.Perm.swap x b l)

theorem mem_goInsert {α : Type} {c : α → α → Int} {x y : α} {l : List α}
    (h : y ∈ goInsert c x l) : y = x ∨ y ∈ l := by
  have := (goInsert_perm c x l).mem_iff.mp h
  simpa using this

theorem goInsert_pairwise {α : Type} {c : α → α → Int} (h : IsCmp c) (x : α) :
    ∀ {l : List α}, l.Pairwise (fun a b => c a b ≤ 0) →
      (goInsert c x l).Pairwise (fun a b => c a b ≤ 0)
  | [], _ => by simp [goInsert]
  | b :: l, hs => by
    rcases List.pairwise_cons.mp hs with ⟨hb, hl⟩
    simp only [goInsert]
    split_ifs with hlt
    · refine List.pairwise_cons.mpr ⟨?_, hs⟩
      intro y hy
      rcases List.mem_cons.mp hy with rfl | hyl
      · omega
      · exact le_of_lt (h.lt_le_trans x b y hlt (hb y hyl))
    · refine List.pairwise_cons.mpr ⟨?_, goInsert_pairwise h x hl⟩
      intro y hy
      rcases mem_goInsert hy with heq | hyl
      · rw [heq]
        have := h.swap x b
        omega
      · exact hb y hyl

theorem goSort_aux_perm {α : Type} (c : α → α → Int) :
    ∀ (xs acc : List α), xs.foldl (fun acc x => goInsert c x acc) acc ~ acc ++ xs
  | [], acc => by simp
  | x :: xs, acc => by
    calc (x :: xs).foldl (fun acc x => goInsert c x acc) acc
        = xs.foldl (fun acc x => goInsert c x acc) (goInsert c x acc) := rfl
      _ ~ goInsert c x acc ++ xs := goSort_aux_perm c xs (goInsert c x acc)
      _ ~ (x :: acc) ++ xs := ((goInsert_perm c x acc).append_right xs)
      _ ~ acc ++ x :: xs := (List.perm_middle).symm

theorem goSort_perm {α : Type} (c : α → α → Int) (xs : List α) : goSort c xs ~ xs :=
  goSort_aux_perm c xs []

theorem goSort_aux_pairwise {α : Type} {c : α → α → Int} (h : IsCmp c) :
    ∀ (xs acc : List α), acc.Pairwise (fun a b => c a b ≤ 0) →
      (xs.foldl (fun acc x => goInsert c x acc) acc).Pairwise (fun a b => c a b ≤ 0)
  | [], _, hs => hs
  | x :: xs, acc, hs =>
    goSort_aux_pairwise h xs (goInsert c x acc) (goInsert_pairwise h x hs)

/-- The ascending sort is sorted: adjacent results never compare
strictly greater. -/
theorem goSort_pairwise {α : Type} {c : α → α → Int} (h : IsCmp c) (xs : List α) :
    (goSort c xs).Pairwise (fun a b => c a b ≤ 0) :=
  goSort_aux_pairwise h xs [] (List.Pairwise.nil)

theorem goInsert_filter_ne {α : Type} {c : α → α → Int} {x k : α}
    (hx : ¬c x k = 0) :
    ∀ l : List α, (goInsert c x l).filter (fun v => decide (c v k = 0)) =
      l.filter (fun v => decide (c v k = 0))
  | [] => by simp [goInsert, hx]
  | b :: l => by
    simp only [goInsert]
    split_ifs
    · simp [List.filter_cons, hx]
    · simp only [List.filter_cons, goInsert_filter_ne hx l]

theorem goInsert_filter_eq {α : Type} {c : α → α → Int} (h : IsCmp c) {x k : α}
    (hx : c x k = 0) :
    ∀ {l : List α}, l.Pairwise (fun a b => c a b ≤ 0) →
      (goInsert c x l).filter (fun v => decide (c v k = 0)) =
        l.filter (fun v => decide (c v k = 0)) ++ [x]
  | [], _ => by simp [goInsert, hx]
  | b :: l, hs => by
    rcases List.pairwise_cons.mp hs with ⟨hb, hl⟩
    simp only [goInsert]
    split_ifs with hlt
    · -- x goes to the front: nothing at or after b can tie with k
      have hkb : c k b < 0 := by
        have := h.congr_left x k b hx
        omega
      have hnone : ∀ a ∈ b :: l, ¬(decide (c a k = 0) = true) := by
        intro a ha
        rcases List.mem_cons.mp ha with rfl | hal
        · have := h.swap a k
          simp only [decide_eq_true_eq]
          omega
        · have hka : c k a < 0 := h.lt_le_trans k b a hkb (hb a hal)
          have := h.swap a k
          simp only [decide_eq_true_eq]
          omega
      rw [List.filter_cons_of_pos (by simp [hx]), List.filter_eq_nil_iff.mpr hnone]
      simp
    · rw [List.filter_cons, List.filter_cons, goInsert_filter_eq h hx hl]
      by_cases hbk : c b k = 0 <;> simp [hbk]

theorem goSort_aux_filter {α : Type} {c : α → α → Int} (h : IsCmp c) (k : α) :
    ∀ (xs acc : List α), acc.Pairwise (fun a b => c a b ≤ 0) →
      (xs.foldl (fun acc x => goInsert c x acc) acc).filter (fun v => decide (c v k = 0)) =
        acc.filter (fun v => decide (c v k = 0)) ++ xs.filter (fun v => decide (c v k = 0))
  | [], acc, _ => by simp
  | x :: xs, acc, hs => by
    have step := goSort_aux_filter h k xs (goInsert c x acc) (goInsert_pairwise h x hs)
    calc ((x :: xs).foldl (fun acc x => goInsert c x acc) acc).filter
            (fun v => decide (c v k = 0))
        = (goInsert c x acc).filter (fun v => decide (c v k = 0)) ++
            xs.filter (fun v => decide (c v k = 0)) := step
      _ = acc.filter (fun v => decide (c v k = 0)) ++
            (x :: xs).filter (fun v => decide (c v k = 0)) := by
          by_cases hx : c x k = 0
          · rw [goInsert_filter_eq h hx hs, List.filter_cons_of_pos (by simp [hx])]
            simp
          · rw [goInsert_filter_ne hx acc, List.filter_cons_of_neg (by simp [hx])]

/-- Stability of the insertion sort `goSort`: for every precedence class
(the set of elements tying with a fixed `k`), the sorted output lists
that class in input order.  This is a fact about the insertion sort, so
it transfers to `sort.Sort` only on inputs short enough for `sort.Sort`
to *be* that insertion sort (fewer than 7 elements in every Go
release). -/
theorem goSort_stable {α : Type} {c : α → α → Int} (h : IsCmp c) (k : α) (xs : List α) :
    (goSort c xs).filter (fun v => decide (c v k = 0)) =
      xs.filter (fun v => decide (c v k = 0)) := by
  simpa using goSort_aux_filter h k xs [] List.Pairwise.nil

/-- With no precedence ties anywhere in the input, sorting with the
reversed comparator produces exactly the reverse of the ascending sort. -/
theorem goSort_flip_eq_reverse {α : Type} {c : α → α → Int} (h : IsCmp c) {xs : List α}
    (hd : xs.Pairwise (fun a b => c a b ≠ 0)) :
    goSort (flipCmp c) xs = (goSort c xs).reverse := by
  have hsym : ∀ {a b : α}, c a b ≠ 0 → c b a ≠ 0 := by
    intro a b hab
    have := h.swap a b
    omega
  have hne_flip : (goSort (flipCmp c) xs).Pairwise (fun a b => c a b ≠ 0) :=
    ((goSort_perm (flipCmp c) xs).pairwise_iff hsym).mpr hd
  have hne_asc : (goSort c xs).Pairwise (fun a b => c a b ≠ 0) :=
    ((goSort_perm c xs).pairwise_iff hsym).mpr hd
  have hs₁ : (goSort (flipCmp c) xs).Pairwise (fun a b => c b a < 0) := by
    refine ((goSort_pairwise (isCmp_flipCmp h) xs).and hne_flip).imp ?_
    intro a b hab
    rcases hab with ⟨h1, h2⟩
    simp only [flipCmp] at h1
    have := h.swap a b
    omega
  have hs₂ : ((goSort c xs).reverse).Pairwise (fun a b => c b a < 0) := by
    rw [List.pairwise_reverse]
    refine ((goSort_pairwise h xs).and hne_asc).imp ?_
    intro a b hab
    omega
  have hperm : goSort (flipCmp c) xs ~ (goSort c xs).reverse :=
    ((goSort_perm (flipCmp c) xs).trans (goSort_perm c xs).symm).trans
      (List.reverse_perm _).symm
  haveI : IsAntisymm α (fun a b => c b a < 0) := by
    constructor
    intro a b h1 h2
    have := h.swap a b
    omega
  exact List.eq_of_perm_of_sorted hperm hs₁ hs₂

theorem isCmp_charListCmp : IsCmp charListCmp :=
  isCmp_lexCmp (isCmp_cmpOn isCmp_cmpInt _)

theorem isCmp_semverIdentNumCmp : IsCmp semverIdentNumCmp := by
  constructor
  · intro a b
    simp only [semverIdentNumCmp]
    cases goParseInt64 a <;> cases goParseInt64 b <;> simp
    exact isCmp_cmpInt.range _ _
  · intro a b
    simp only [semverIdentNumCmp]
    cases goParseInt64 a <;> cases goParseInt64 b <;> simp
    exact isCmp_cmpInt.swap _ _
  · intro a b d
    simp only [semverIdentNumCmp]
    cases ha : goParseInt64 a <;> cases hb : goParseInt64 b <;> cases hd : goParseInt64 d <;>
      simp
    exact fun h1 h2 => isCmp_cmpInt.le_trans _ _ _ h1 h2

theorem isCmp_semverIdentCmp : IsCmp semverIdentCmp :=
  isCmp_cmpSeq isCmp_semverIdentNumCmp isCmp_charListCmp

theorem isCmp_semverPreReleaseCmp : IsCmp semverPreReleaseCmp := by
  have hlex : IsCmp (lexCmp semverIdentCmp) := isCmp_lexCmp isCmp_semverIdentCmp
  constructor
  · intro a b
    simp only [semverPreReleaseCmp]
    split_ifs <;> simp_all
    exact hlex.range _ _
  · intro a b
    simp only [semverPreReleaseCmp]
    cases hea : a.preRelease.isEmpty <;> cases heb : b.preRelease.isEmpty <;> simp
    exact hlex.swap _ _
  · intro a b d
    simp only [semverPreReleaseCmp]
    cases hea : a.preRelease.isEmpty <;> cases heb : b.preRelease.isEmpty <;>
      cases hed : d.preRelease.isEmpty <;> simp
    exact hlex.le_trans _ _ _

theorem isCmp_semverSliceCmp : IsCmp semverSliceCmp :=
  isCmp_cmpSeq (isCmp_cmpOn isCmp_cmpInt _)
    (isCmp_cmpSeq (isCmp_cmpOn isCmp_cmpInt _) (isCmp_cmpOn isCmp_cmpInt _))

theorem isCmp_semverCompare : IsCmp semverCompare :=
  isCmp_cmpSeq isCmp_semverSliceCmp isCmp_semverPreReleaseCmp

/-! ## Helper lemmas -/

/-- `find?` returns the head of the filtered list. -/
theorem find?_eq_head?_filter {α : Type} (p : α → Bool) (l : List α) :
    l.find? p = (l.filter p).head? := by
  induction l with
  | nil => rfl
  | cons a l ih =>
    by_cases h : p a = true
    · rw [List.find?_cons_of_pos _ h, List.filter_cons_of_pos h, List.head?_cons]
    · rw [List.find?_cons_of_neg _ h, List.filter_cons_of_neg h, ih]

/-- The backwards scan of `LatestDistVersion` picks the last qualifying
element. -/
theorem latestNonDev_eq_getLast? (vs : List (List Char)) :
    latestNonDev vs =
      (vs.filter (fun v => !containsSub ['-', 'd', 'e', 'v'] v)).getLast? := by
  rw [latestNonDev, find?_eq_head?_filter, List.filter_reverse, List.head?_reverse]

/-- A list whose length-bounded front equals `sub` is `sub` followed by a
remainder. -/
theorem take_length_eq_iff {sub : List Char} :
    ∀ {l : List Char}, l.take sub.length = sub ↔ ∃ t, l = sub ++ t := by
  induction sub with
  | nil => intro l; simp
  | cons c cs ih =>
    intro l
    cases l with
    | nil => simp
    | cons d ds =>
      simp only [List.length_cons, List.take_succ_cons, List.cons_append]
      constructor
      · intro h
        rcases List.cons_eq_cons.mp h with ⟨rfl, h2⟩
        rcases ih.mp h2 with ⟨t, rfl⟩
        exact ⟨t, rfl⟩
      · rintro ⟨t, ht⟩
        rcases List.cons_eq_cons.mp ht with ⟨rfl, rfl⟩
        exact List.cons_eq_cons.mpr ⟨rfl, ih.mpr ⟨t, rfl⟩⟩

/-- `strings.Contains` finds exactly the decompositions
`s = pre ++ sub ++ post`. -/
theorem containsSub_iff (sub : List Char) :
    ∀ s : List Char, containsSub sub s = true ↔ ∃ pre post, s = pre ++ sub ++ post
  | [] => by
    simp only [containsSub, List.isEmpty_iff]
    constructor
    · rintro rfl
      exact ⟨[], [], rfl⟩
    · rintro ⟨pre, post, h⟩
      rcases List.append_eq_nil.mp (List.append_eq_nil.mp h.symm).1 with ⟨-, h2⟩
      exact h2
  | ch :: rest => by
    simp only [containsSub, Bool.or_eq_true, beq_iff_eq]
    constructor
    · rintro (h | h)
      · rcases take_length_eq_iff.mp h with ⟨t, ht⟩
        exact ⟨[], t, by simpa using ht⟩
      · rcases (containsSub_iff sub rest).mp h with ⟨pre, post, hp⟩
        exact ⟨ch :: pre, post, by simp [hp]⟩
    · rintro ⟨pre, post, hp⟩
      cases pre with
      | nil =>
        left
        exact take_length_eq_iff.mpr ⟨post, by simpa using hp⟩
      | cons p ps =>
        right
        rcases List.cons_eq_cons.mp hp with ⟨-, h2⟩
        exact (containsSub_iff sub rest).mpr ⟨ps, post, h2⟩

theorem digitToChar_ne_v : ∀ m : Nat, digitToChar m ≠ 'v' := by
  intro m
  rcases m with _ | _ | _ | _ | _ | _ | _ | _ | _ | m
  · decide
  · decide
  · decide
  · decide
  · decide
  · decide
  · decide
  · decide
  · decide
  · show ('9' : Char) ≠ 'v'
    decide

theorem natToCharsRevAux_ne_v :
    ∀ (fuel n : Nat) (ch : Char), ch ∈ natToCharsRevAux fuel n → ch ≠ 'v'
  | 0, _, _ => by simp [natToCharsRevAux]
  | fuel + 1, n, ch => by
    simp only [natToCharsRevAux]
    split_ifs
    · simp
    · intro h
      rcases List.mem_cons.mp h with rfl | h'
      · exact digitToChar_ne_v _
      · exact natToCharsRevAux_ne_v fuel (n / 10) ch h'

theorem natToChars_ne_v (n : Nat) (ch : Char) (h : ch ∈ natToChars n) : ch ≠ 'v' := by
  rw [natToChars] at h
  split_ifs at h
  · rcases List.mem_singleton.mp h with rfl
    decide
  · exact natToCharsRevAux_ne_v n n ch (List.mem_reverse.mp h)

theorem natToChars_ne_nil (n : Nat) : natToChars n ≠ [] := by
  rw [natToChars]
  split_ifs with h
  · simp
  · rcases n with _ | m
    · omega
    · simp only [natToCharsRevAux]
      rw [if_neg h]
      simp

theorem intToChars_ne_v (i : Int) (ch : Char) (h : ch ∈ intToChars i) : ch ≠ 'v' := by
  rw [intToChars] at h
  split_ifs at h
  · rcases List.mem_cons.mp h with rfl | h'
    · decide
    · exact natToChars_ne_v _ ch h'
  · exact natToChars_ne_v _ ch h

theorem intToChars_ne_nil (i : Int) : intToChars i ≠ [] := by
  rw [intToChars]
  split_ifs
  · simp
  · exact natToChars_ne_nil _

/-- The canonical rendering never starts with a `v`: its first character
is a minus sign or a decimal digit of the major component. -/
theorem renderSemver_head_ne_v (v : GoSemver) (hd : Char)
    (h : (renderSemver v).head? = some hd) : hd ≠ 'v' := by
  rcases List.exists_cons_of_ne_nil (intToChars_ne_nil v.major) with ⟨x, xs, hx⟩
  have hxm : x ∈ intToChars v.major := by
    rw [hx]
    exact List.mem_cons_self x xs
  rw [renderSemver, List.head?_append, hx] at h
  simp at h
  rcases h with rfl
  exact intToChars_ne_v v.major _ hxm

/-! ## Claims C3, C4, C5, C10: version discovery -/

/-- C3, counterexample.  The claim says a line that had no prefix is
returned without one; `DistVersions` instead prepends `"v"`
unconditionally, so the unprefixed valid line `1.0.0` comes back as
`v1.0.0`.  (The claim's "strips exactly one leading prefix character" also
fails: `vv1.0.0` would then be unparseable and dropped, yet it is
returned.) -/
theorem c3_counterexample :
    distVersionsPure ["1.0.0".toList] false = ["v1.0.0".toList] ∧
      "v1.0.0".toList ≠ "1.0.0".toList ∧
      distVersionsPure ["vv1.0.0".toList] false = ["v1.0.0".toList] := by
  refine ⟨by decide, by decide, by decide⟩

/-- C3 (amended): for every newline-delimited listing, `DistVersions`
returns exactly (up to the sort's reordering) the lines that parse as
semantic versions after stripping *all* leading `v` characters, each
rendered canonically and prefixed with a single `v`; each unparseable
line is dropped silently, leaving the rest of the result untouched. -/
theorem c3_valid_tokens_and_silent_drop :
    (∀ (lines : List (List Char)) (sortDesc : Bool),
      distVersionsPure lines sortDesc ~
        (parsedDistVersions lines).map (fun v => 'v' :: renderSemver v)) ∧
    (∀ (pre post : List (List Char)) (l : List Char) (sortDesc : Bool),
      newSemverVersion (trimLeftV l) = none →
        distVersionsPure (pre ++ l :: post) sortDesc =
          distVersionsPure (pre ++ post) sortDesc) := by
  constructor
  · intro lines sortDesc
    cases sortDesc <;>
      simpa [distVersionsPure] using (goSort_perm _ (parsedDistVersions lines)).map _
  · intro pre post l sortDesc h
    have hp : parsedDistVersions (pre ++ l :: post) = parsedDistVersions (pre ++ post) := by
      rw [parsedDistVersions, parsedDistVersions]
      simp [List.filterMap_append, List.filterMap_cons, h]
    rw [distVersionsPure, distVersionsPure, hp]

/-- Witness for C3: the unparseable middle line `junk` is dropped without
affecting the valid lines around it. -/
theorem c3_valid_tokens_and_silent_drop_witness :
    distVersionsPure ["v1.2.0".toList, "junk".toList, "v1.0.0".toList] false =
      distVersionsPure ["v1.2.0".toList, "v1.0.0".toList] false :=
  c3_valid_tokens_and_silent_drop.2 ["v1.2.0".toList] ["v1.0.0".toList] "junk".toList false
    (by decide)

/-- C4, counterexample.  `v1.0.0+x` and `v1.0.0+y` have equal semver
precedence (build metadata is ignored by `Compare` but kept by
`String()`), and `sort.Sort` leaves such a 2-element slice untouched for
both comparators, so the descending result is *not* the reverse of the
ascending one. -/
theorem c4_counterexample :
    distVersionsPure ["v1.0.0+x".toList, "v1.0.0+y".toList] true ≠
      (distVersionsPure ["v1.0.0+x".toList, "v1.0.0+y".toList] false).reverse := by
  decide

/-- C4 (amended): ascending, `DistVersions` returns a permutation of the
parsed versions sorted nondecreasingly by semver precedence (any correct
`sort.Sort` guarantees this much); when the listing parses to at most six
versions — the regime in which every Go release's `sort.Sort` is exactly
the modelled insertion sort — every precedence class additionally keeps
its input order (stable); descending, it sorts by the reversed
comparator, which coincides with the exact reverse of the ascending
result whenever no two parsed versions are precedence-equal (their sorted
order then being unique, an implementation-independent fact) but not in
general.  For longer listings `sort.Sort` is unstable and fixes no tie
order at all. -/
theorem c4_ascending_sorted_descending_reverse :
    ∀ lines : List (List Char),
      distVersionsPure lines false =
        (goSort semverCompare (parsedDistVersions lines)).map
          (fun v => 'v' :: renderSemver v) ∧
      (goSort semverCompare (parsedDistVersions lines)).Pairwise
        (fun a b => semverCompare a b ≤ 0) ∧
      goSort semverCompare (parsedDistVersions lines) ~ parsedDistVersions lines ∧
      ((parsedDistVersions lines).length ≤ 6 →
        ∀ k, (goSort semverCompare (parsedDistVersions lines)).filter
            (fun v => decide (semverCompare v k = 0)) =
          (parsedDistVersions lines).filter (fun v => decide (semverCompare v k = 0))) ∧
      ((parsedDistVersions lines).Pairwise (fun a b => semverCompare a b ≠ 0) →
        distVersionsPure lines true = (distVersionsPure lines false).reverse) := by
  intro lines
  refine ⟨by simp [distVersionsPure], goSort_pairwise isCmp_semverCompare _,
    goSort_perm _ _, fun _ k => goSort_stable isCmp_semverCompare k _, ?_⟩
  intro hd
  have hdesc : distVersionsPure lines true =
      (goSort (flipCmp semverCompare) (parsedDistVersions lines)).map
        (fun v => 'v' :: renderSemver v) := by
    simp [distVersionsPure]
  have hasc : distVersionsPure lines false =
      (goSort semverCompare (parsedDistVersions lines)).map
        (fun v => 'v' :: renderSemver v) := by
    simp [distVersionsPure]
  rw [hdesc, hasc, goSort_flip_eq_reverse isCmp_semverCompare hd, List.map_reverse]

/-- Witness for C4: a two-entry listing (inside the insertion-sort
regime) keeps its tie class in input order, and with two
distinct-precedence versions descending is the exact reverse of
ascending. -/
theorem c4_ascending_sorted_descending_reverse_witness :
    ((goSort semverCompare
        (parsedDistVersions ["v1.0.0+x".toList, "v1.0.0+y".toList])).filter
          (fun v => decide (semverCompare v ⟨1, 0, 0, [], []⟩ = 0)) =
      (parsedDistVersions ["v1.0.0+x".toList, "v1.0.0+y".toList]).filter
        (fun v => decide (semverCompare v ⟨1, 0, 0, [], []⟩ = 0))) ∧
    distVersionsPure ["v1.0.0".toList, "v2.0.0".toList] true =
      (distVersionsPure ["v1.0.0".toList, "v2.0.0".toList] false).reverse :=
  ⟨(c4_ascending_sorted_descending_reverse
      ["v1.0.0+x".toList, "v1.0.0+y".toList]).2.2.2.1 (by decide) ⟨1, 0, 0, [], []⟩,
   (c4_ascending_sorted_descending_reverse _).2.2.2.2 (by decide)⟩

/-- C5: `LatestDistVersion` returns the last element of the ascending
`DistVersions` result whose text lacks the substring `-dev`, and fails
with the not-found error exactly when the list is empty or every entry
contains `-dev`; the three listed examples behave as claimed. -/
theorem c5_latest_stable :
    (∀ vs : List (List Char),
      latestNonDev vs =
        (vs.filter (fun v => !containsSub ['-', 'd', 'e', 'v'] v)).getLast? ∧
      ((latestDistScan vs = .error "could not find a non dev version") ↔
        ∀ v ∈ vs, containsSub ['-', 'd', 'e', 'v'] v = true)) ∧
    (∀ lines, latestDistVersionPure lines = latestDistScan (distVersionsPure lines false)) ∧
    latestDistScan ["v1.0.0".toList, "v1.1.0-dev".toList, "v1.2.0".toList] =
      .ok "v1.2.0".toList ∧
    latestDistScan ["v1.0.0-dev".toList] = .error "could not find a non dev version" ∧
    latestDistScan [] = .error "could not find a non dev version" := by
  refine ⟨?_, fun _ => rfl, rfl, rfl, rfl⟩
  intro vs
  refine ⟨latestNonDev_eq_getLast? vs, ?_⟩
  rw [latestDistScan]
  constructor
  · intro h
    cases hn : latestNonDev vs with
    | some v => rw [hn] at h; cases h
    | none =>
      rw [latestNonDev_eq_getLast?] at hn
      have := List.getLast?_eq_none_iff.mp hn
      intro v hv
      have := List.filter_eq_nil_iff.mp this v hv
      simpa using this
  · intro h
    cases hn : latestNonDev vs with
    | some v =>
      exfalso
      rw [latestNonDev_eq_getLast?] at hn
      have hne : vs.filter (fun v => !containsSub ['-', 'd', 'e', 'v'] v) ≠ [] := by
        intro hnil
        rw [hnil] at hn
        cases hn
      rcases List.exists_mem_of_ne_nil _ hne with ⟨x, hx⟩
      have hxm := List.mem_filter.mp hx
      have := h x hxm.1
      simp [this] at hxm
    | none => rfl

/-- Witness for C5: an all-dev list makes the scan fail. -/
theorem c5_latest_stable_witness :
    latestDistScan ["v3.0.0-dev".toList] = .error "could not find a non dev version" :=
  (c5_latest_stable.1 ["v3.0.0-dev".toList]).2.mpr (by decide)

/-- C10: every output string of `DistVersions` is a single `v` followed
by the canonical rendering of a parsed version (whose first character is
never `v`), and concretely the unprefixed line `1.0.0` and the
doubly-prefixed line `vv1.0.0` both come back as `v1.0.0`. -/
theorem c10_single_v_canonical :
    (∀ (lines : List (List Char)) (sortDesc : Bool) (s : List Char),
        s ∈ distVersionsPure lines sortDesc →
        ∃ v : GoSemver, s = 'v' :: renderSemver v ∧
          ∀ hd, (renderSemver v).head? = some hd → hd ≠ 'v') ∧
    distVersionsPure ["1.0.0".toList] false = ["v1.0.0".toList] ∧
    distVersionsPure ["vv1.0.0".toList] false = ["v1.0.0".toList] := by
  refine ⟨?_, by decide, by decide⟩
  intro lines sortDesc s hs
  simp only [distVersionsPure] at hs
  rcases List.mem_map.mp hs with ⟨v, _, hfv⟩
  exact ⟨v, hfv.symm, fun hd hh => renderSemver_head_ne_v v hd hh⟩

/-- Witness for C10: the shape of the single output for the line
`vv1.0.0`. -/
theorem c10_single_v_canonical_witness :
    ∃ v : GoSemver, "v1.0.0".toList = 'v' :: renderSemver v ∧
      ∀ hd, (renderSemver v).head? = some hd → hd ≠ 'v' :=
  c10_single_v_canonical.1 ["vv1.0.0".toList] false "v1.0.0".toList (by decide)

/-! ## Claims C1, C2: transport fallback and the bounded stream -/

/-- C1: `fetch` tries the daemon transport first; when it succeeds no
HTTP request occurs and its stream is the result; when and only when it
fails (endpoint resolution error, shell not up, RPC error, or RPC error
field set) the single HTTP attempt against `gatewayURL ++ ipfsPath` runs
and its result, success or failure, is returned unchanged. -/
theorem c1_daemon_first_single_http_fallback :
    ∀ {σ : Type} (denv : DaemonEnv σ) (henv : HttpEnv σ) (ipfsPath : String),
      (∀ rc, ipfsFetch denv = .ok rc →
        fetch denv henv ipfsPath = (.ok rc, [.daemon])) ∧
      (∀ e, ipfsFetch denv = .error e →
        fetch denv henv ipfsPath =
          (httpFetch henv (gatewayURL ++ ipfsPath),
           [.daemon, .httpGet (gatewayURL ++ ipfsPath)])) ∧
      ((∃ e, ipfsFetch denv = .error e) ↔
        (∃ e, denv.apiEndpoint = .error e) ∨ denv.isUp = false ∨
          (∃ e, denv.send = .error e) ∨
          (∃ r e, denv.send = .ok r ∧ r.err = some e)) := by
  intro σ denv henv ipfsPath
  refine ⟨?_, ?_, ?_⟩
  · intro rc h
    simp [fetch, h]
  · intro e h
    simp [fetch, h]
  · rcases denv with ⟨ep, up, send⟩
    rcases ep with e | addr
    · simp [ipfsFetch]
    · rcases up
      · simp [ipfsFetch]
      · rcases send with e2 | resp
        · simp [ipfsFetch]
        · rcases resp with ⟨rerr, rout⟩
          rcases rerr with _ | e3 <;> simp [ipfsFetch]

/-- Witness for C1: a reachable daemon with a clean RPC yields the daemon
stream with no HTTP attempt; a daemon whose endpoint discovery fails
falls back to the HTTP result. -/
theorem c1_daemon_first_single_http_fallback_witness :
    fetch (σ := Unit) ⟨.ok "/ip4/127.0.0.1/tcp/5001", true, .ok ⟨none, ()⟩⟩
        ⟨none, .error "connection refused"⟩ "/ipns/dist.ipfs.io/go-ipfs/versions" =
      (.ok (newLimitReadCloser () fetchSizeLimit), [.daemon]) ∧
    fetch (σ := Unit) ⟨.error "api file not found", true, .ok ⟨none, ()⟩⟩
        ⟨none, .error "connection refused"⟩ "/p" =
      (httpFetch ⟨none, .error "connection refused"⟩ (gatewayURL ++ "/p"),
       [.daemon, .httpGet (gatewayURL ++ "/p")]) :=
  ⟨(c1_daemon_first_single_http_fallback _ _ _).1 _ rfl,
   (c1_daemon_first_single_http_fallback _ _ _).2.1 _ rfl⟩

/-- C2: both transports wrap their stream in
`newLimitReadCloser(·, fetchSizeLimit)`; the wrapper yields at most
`fetchSizeLimit = 512 MiB` bytes (exactly the cap when the source holds
more), and closing it closes the underlying source no matter how many
bytes were read. -/
theorem c2_bounded_stream_and_close :
    fetchSizeLimit = 536870912 ∧
    (∀ src : ByteSource,
      (lrcReadAll (newLimitReadCloser src fetchSizeLimit)).length =
        min 536870912 src.data.length ∧
      (lrcReadAll (newLimitReadCloser src fetchSizeLimit)).length ≤ 536870912 ∧
      lrcClose (newLimitReadCloser src fetchSizeLimit) = src ∧
      (∀ k, lrcClose ((lrcRead (newLimitReadCloser src fetchSizeLimit) k).2) = src)) ∧
    (∀ {σ : Type} (denv : DaemonEnv σ) (rc : LimitReadCloser σ),
      ipfsFetch denv = .ok rc → ∃ s, rc = newLimitReadCloser s fetchSizeLimit) ∧
    (∀ {σ : Type} (henv : HttpEnv σ) (url : String) (rc : LimitReadCloser σ),
      httpFetch henv url = .ok rc → ∃ s, rc = newLimitReadCloser s fetchSizeLimit) := by
  refine ⟨by decide, ?_, ?_, ?_⟩
  · intro src
    have hlim : fetchSizeLimit.toNat = 536870912 := by decide
    refine ⟨?_, ?_, rfl, fun k => rfl⟩
    · show (src.data.take (fetchSizeLimit.toNat)).length = _
      rw [List.length_take, hlim]
    · show (src.data.take (fetchSizeLimit.toNat)).length ≤ _
      rw [List.length_take, hlim]
      exact Nat.min_le_left _ _
  · intro σ denv rc h
    rcases denv with ⟨ep, up, send⟩
    rcases ep with e | addr
    · simp [ipfsFetch] at h
    · rcases up
      · simp [ipfsFetch] at h
      · rcases send with e2 | resp
        · simp [ipfsFetch] at h
        · rcases resp with ⟨rerr, rout⟩
          rcases rerr with _ | e3
          · simp [ipfsFetch] at h
            exact ⟨rout, h.symm⟩
          · simp [ipfsFetch] at h
  · intro σ henv url rc h
    rcases henv with ⟨nre, dr⟩
    rcases nre with _ | e
    · rcases dr with e2 | resp
      · simp [httpFetch] at h
      · rcases resp with ⟨code, st, body, btext⟩
        by_cases hc : code ≥ 400
        · rcases btext with e3 | mes <;> simp [httpFetch, hc] at h
        · simp [httpFetch, hc] at h
          exact ⟨body, h.symm⟩
    · simp [httpFetch] at h

/-- Witness for C2: the daemon transport's successful stream is the limit
wrapper around the RPC output. -/
theorem c2_bounded_stream_and_close_witness :
    ∃ s : Unit, newLimitReadCloser () fetchSizeLimit = newLimitReadCloser s fetchSizeLimit :=
  c2_bounded_stream_and_close.2.2.1 (σ := Unit)
    ⟨.ok "/ip4/127.0.0.1/tcp/5001", true, .ok ⟨none, ()⟩⟩ _ rfl

/-! ## Claim C9: archive and distribution path names -/

/-- C9: `makeArchiveName` produces exactly
`name_ver_GOOS-GOARCH.atype` and `makeIpfsPath` exactly
`ipfsDistPath/dist/ver/arcName`; both are plain functions of their
arguments (the host platform entering only through the `goos`/`goarch`
arguments), illustrated by the spec's own example. -/
theorem c9_name_formats :
    (∀ name ver goos goarch atype : String,
      makeArchiveName name ver goos goarch atype =
        name ++ "_" ++ ver ++ "_" ++ goos ++ "-" ++ goarch ++ "." ++ atype) ∧
    (∀ root dist ver arcName : String,
      makeIpfsPath root dist ver arcName =
        root ++ "/" ++ dist ++ "/" ++ ver ++ "/" ++ arcName) ∧
    makeArchiveName "ipfs-10-to-11" "v1.8.0" "linux" "amd64" "tar.gz" =
      "ipfs-10-to-11_v1.8.0_linux-amd64.tar.gz" ∧
    makeIpfsPath "/ipns/dist.ipfs.io" "go-ipfs" "v0.7.0"
        "go-ipfs_v0.7.0_linux-amd64.tar.gz" =
      "/ipns/dist.ipfs.io/go-ipfs/v0.7.0/go-ipfs_v0.7.0_linux-amd64.tar.gz" := by
  have hd : ∀ a b : String, (a ++ b).data = a.data ++ b.data := fun _ _ => rfl
  refine ⟨?_, ?_, by decide, by decide⟩
  · intro name ver goos goarch atype
    apply String.ext
    show sprintfS "%s_%s_%s-%s.%s".toList [name, ver, goos, goarch, atype] = _
    rw [hd, hd, hd, hd, hd, hd, hd]
    show sprintfS ('%' :: 's' :: '_' :: '%' :: 's' :: '_' :: '%' :: 's' :: '-' :: '%' ::
      's' :: '.' :: '%' :: 's' :: []) _ = _
    simp [sprintfS]
  · intro root dist ver arcName
    apply String.ext
    show sprintfS "%s/%s/%s/%s".toList [root, dist, ver, arcName] = _
    rw [hd, hd, hd, hd, hd, hd]
    show sprintfS ('%' :: 's' :: '/' :: '%' :: 's' :: '/' :: '%' :: 's' :: '/' :: '%' ::
      's' :: []) _ = _
    simp [sprintfS]

/-! ## Claim C8: the libc-variant probe -/

/-- C8: on any non-Linux host `osWithVariant` returns the OS name
unchanged without running the probe; on Linux it runs the probe, fails
exactly when the probe command itself could not be invoked (its non-zero
exit status being suppressed by the `|| true` in the probed command), and
otherwise returns `linux-musl` precisely when some output line contains
the substring `musl`, else `linux`. -/
theorem c8_os_with_variant :
    ∀ (goos : String) (probe : Except String (List (List Char))),
      (goos ≠ "linux" → osWithVariant goos probe = (.ok goos, false)) ∧
      (∀ e, probe = .error e → osWithVariant "linux" probe = (.error e, true)) ∧
      (∀ outLines, probe = .ok outLines →
        (osWithVariant "linux" probe).2 = true ∧
        ((osWithVariant "linux" probe).1 = .ok "linux-musl" ↔
          ∃ l ∈ outLines, ∃ pre post, l = pre ++ muslChars ++ post) ∧
        ((osWithVariant "linux" probe).1 = .ok "linux" ↔
          ¬∃ l ∈ outLines, ∃ pre post, l = pre ++ muslChars ++ post)) := by
  intro goos probe
  refine ⟨?_, ?_, ?_⟩
  · intro h
    simp [osWithVariant, h]
  · intro e h
    simp [osWithVariant, h]
  · intro outLines h
    subst h
    have hiff : outLines.any (fun l => containsSub muslChars l) = true ↔
        ∃ l ∈ outLines, ∃ pre post, l = pre ++ muslChars ++ post := by
      rw [List.any_eq_true]
      constructor
      · rintro ⟨l, hl, hc⟩
        exact ⟨l, hl, (containsSub_iff muslChars l).mp hc⟩
      · rintro ⟨l, hl, hc⟩
        exact ⟨l, hl, (containsSub_iff muslChars l).mpr hc⟩
    have hunfold : osWithVariant "linux" (Except.ok outLines) =
        (if outLines.any (fun l => containsSub muslChars l) then (Except.ok "linux-musl", true)
         else (Except.ok "linux", true)) := by
      simp only [osWithVariant]
      rw [if_neg (by simp)]
    rw [hunfold]
    by_cases ha : outLines.any (fun l => containsSub muslChars l) = true
    · rw [if_pos ha]
      refine ⟨rfl, ?_, ?_⟩
      · exact ⟨fun _ => hiff.mp ha, fun _ => rfl⟩
      · constructor
        · intro hbad
          simp at hbad
        · intro hno
          exact absurd (hiff.mp ha) hno
    · rw [if_neg ha]
      refine ⟨rfl, ?_, ?_⟩
      · constructor
        · intro hbad
          simp at hbad
        · intro hex
          exact absurd (hiff.mpr hex) ha
      · exact ⟨fun _ hex => absurd (hiff.mpr hex) ha, fun _ => rfl⟩

/-- Witness for C8: darwin passes through without probing; an alpine-style
probe output line reports the musl variant. -/
theorem c8_os_with_variant_witness :
    osWithVariant "darwin" (.ok []) = (.ok "darwin", false) ∧
    (osWithVariant "linux" (.ok ["musl libc (x86_64)".toList])).1 = .ok "linux-musl" :=
  ⟨(c8_os_with_variant "darwin" (.ok [])).1 (by decide),
   ((c8_os_with_variant "linux" (.ok ["musl libc (x86_64)".toList])).2.2 _ rfl).2.1.mpr
     ⟨"musl libc (x86_64)".toList, by decide,
      [], " libc (x86_64)".toList, by decide⟩⟩

/-! ## Claims C6, C7: `FetchBinary` disposition, staging and cleanup -/

theorem fetchBinaryStaged_archive_writes (env : FetchBinaryEnv)
    (dist ver arcName1 out1 p : String)
    (h : FsEvent.fileCreated p ∈ (fetchBinaryStaged env dist ver arcName1 out1).2 ∨
         FsEvent.archiveWritten p ∈ (fetchBinaryStaged env dist ver arcName1 out1).2) :
    ∃ tmp, env.tempDir = .ok tmp ∧
      p = goPathJoin tmp (makeArchiveName arcName1 ver env.goos env.goarch
            (if env.goos = "windows" then "zip" else "tar.gz")) := by
  rcases env with ⟨goos, goarch, root, stat, td, cr, fr, cpr, ur, chr⟩
  rcases td with e | tmp
  · simp [fetchBinaryStaged] at h
  · refine ⟨tmp, rfl, ?_⟩
    rcases cr with _ | e1 <;> rcases fr with _ | e2 <;> rcases cpr with _ | e3 <;>
      rcases ur with _ | e4 <;> rcases chr with _ | e5 <;>
      simp [fetchBinaryStaged] at h <;> exact h

theorem fetchBinaryStaged_cleanup (env : FetchBinaryEnv)
    (dist ver arcName1 out1 tmp : String)
    (h : FsEvent.tempDirCreated tmp ∈ (fetchBinaryStaged env dist ver arcName1 out1).2) :
    ((fetchBinaryStaged env dist ver arcName1 out1).2).getLast? =
      some (.removedAll tmp) := by
  rcases env with ⟨goos, goarch, root, stat, td, cr, fr, cpr, ur, chr⟩
  rcases td with e | tmp'
  · simp [fetchBinaryStaged] at h
  · rcases cr with _ | e1 <;> rcases fr with _ | e2 <;> rcases cpr with _ | e3 <;>
      rcases ur with _ | e4 <;> rcases chr with _ | e5 <;>
      simp [fetchBinaryStaged] at h ⊢ <;> simp [h]

theorem fetchBinaryStaged_no_binary_write_on_download_failure (env : FetchBinaryEnv)
    (dist ver arcName1 out1 : String)
    (hfail : env.fetchRes ≠ none ∨ env.copyRes ≠ none) (p : String) :
    FsEvent.binaryWritten p ∉ (fetchBinaryStaged env dist ver arcName1 out1).2 := by
  rcases env with ⟨goos, goarch, root, stat, td, cr, fr, cpr, ur, chr⟩
  rcases td with e | tmp
  · simp [fetchBinaryStaged]
  · rcases cr with _ | e1 <;> rcases fr with _ | e2 <;> rcases cpr with _ | e3 <;>
      rcases ur with _ | e4 <;> rcases chr with _ | e5 <;>
      simp [fetchBinaryStaged] <;> simp at hfail

theorem fetchBinaryStaged_binary_write_iff_success (env : FetchBinaryEnv)
    (dist ver arcName1 out1 p : String)
    (h : FsEvent.binaryWritten p ∈ (fetchBinaryStaged env dist ver arcName1 out1).2) :
    env.fetchRes = none ∧ env.copyRes = none ∧ env.unpackRes = none ∧ p = out1 := by
  rcases env with ⟨goos, goarch, root, stat, td, cr, fr, cpr, ur, chr⟩
  rcases td with e | tmp
  · simp [fetchBinaryStaged] at h
  · rcases cr with _ | e1 <;> rcases fr with _ | e2 <;> rcases cpr with _ | e3 <;>
      rcases ur with _ | e4 <;> rcases chr with _ | e5 <;>
      simp [fetchBinaryStaged] at h <;> simp [h]

/-- C6: an existing regular file at the output path fails immediately
with the `ErrExist` path error and performs no effect at all (no temp
dir, no fetch); an existing directory redirects the final binary path to
`out/binaryName` (platform-suffixed, with the defaulting chain applied);
any stat failure other than non-existence propagates, also effect-free. -/
theorem c6_output_disposition :
    ∀ (env : FetchBinaryEnv) (dist ver arcName binName out : String),
      (env.stat = .isFile →
        FetchBinary env dist ver arcName binName out =
          (.error (.alreadyExists "FetchBinary" out), [])) ∧
      (∀ e, env.stat = .statFail e →
        FetchBinary env dist ver arcName binName out = (.error (.statErr e), [])) ∧
      (env.stat = .isDir →
        ∀ p, (FetchBinary env dist ver arcName binName out).1 = .ok p →
          p = goPathJoin out (exeName env.goos
            (if binName = "" then (if arcName = "" then dist else arcName) else binName))) := by
  intro env dist ver arcName binName out
  refine ⟨?_, ?_, ?_⟩
  · intro h
    simp [FetchBinary, h]
  · intro e h
    simp [FetchBinary, h]
  · intro h p hp
    rcases env with ⟨goos, goarch, root, stat, td, cr, fr, cpr, ur, chr⟩
    simp only at h
    subst h
    simp only [FetchBinary] at hp
    rcases td with e | tmp <;> rcases cr with _ | e1 <;> rcases fr with _ | e2 <;>
      rcases cpr with _ | e3 <;> rcases ur with _ | e4 <;> rcases chr with _ | e5 <;>
      simp [fetchBinaryStaged] at hp <;> exact hp.symm

/-- Witness for C6: a run against an existing regular file fails
effect-free with `ErrExist`; a stat failure propagates; a successful run
into an existing directory lands on `outdir/ipfs`. -/
theorem c6_output_disposition_witness :
    FetchBinary ⟨"linux", "amd64", "/ipns/dist.ipfs.io", .isFile, .ok "/tmp/t",
        none, none, none, none, none⟩ "fs-repo-migrations" "v1.0.0" "" "ipfs" "/usr/bin/x" =
      (.error (.alreadyExists "FetchBinary" "/usr/bin/x"), []) ∧
    FetchBinary ⟨"linux", "amd64", "/ipns/dist.ipfs.io", .statFail "permission denied",
        .ok "/tmp/t", none, none, none, none, none⟩
        "fs-repo-migrations" "v1.0.0" "" "ipfs" "/usr/bin/x" =
      (.error (.statErr "permission denied"), []) ∧
    "outdir/ipfs" = goPathJoin "outdir" (exeName "linux"
      (if "ipfs" = "" then (if "" = "" then "fs-repo-migrations" else "") else "ipfs")) := by
  refine ⟨?_, ?_, ?_⟩
  · exact (c6_output_disposition _ "fs-repo-migrations" "v1.0.0" "" "ipfs" "/usr/bin/x").1 rfl
  · exact (c6_output_disposition _ "fs-repo-migrations" "v1.0.0" "" "ipfs" "/usr/bin/x").2.1
      "permission denied" rfl
  · exact (c6_output_disposition
      ⟨"linux", "amd64", "/ipns/dist.ipfs.io", .isDir, .ok "/tmp/t",
        none, none, none, none, none⟩
      "fs-repo-migrations" "v1.0.0" "" "ipfs" "outdir").2.2 rfl "outdir/ipfs" rfl

/-- C7: once past the disposition check, every archive write (the staged
file creation and the downloaded bytes) targets the freshly created temp
directory's archive path and never the final output path; whenever the
temp directory was created, the run's last effect is its recursive
removal, on success and on every failure alike; and a download failure
(fetch or copy) means no write to the final output path ever happens —
the destination is written only when fetch, copy and unpack all
succeeded, and then exactly at the resolved output path. -/
theorem c7_temp_staging_and_cleanup :
    ∀ (env : FetchBinaryEnv) (dist ver arcName binName out : String),
      env.stat = .notExist ∨ env.stat = .isDir →
      (∀ p, (FsEvent.fileCreated p ∈ (FetchBinary env dist ver arcName binName out).2 ∨
             FsEvent.archiveWritten p ∈ (FetchBinary env dist ver arcName binName out).2) →
        ∃ tmp, env.tempDir = .ok tmp ∧
          p = goPathJoin tmp (makeArchiveName (if arcName = "" then dist else arcName) ver
                env.goos env.goarch (if env.goos = "windows" then "zip" else "tar.gz"))) ∧
      (∀ tmp, FsEvent.tempDirCreated tmp ∈ (FetchBinary env dist ver arcName binName out).2 →
        ((FetchBinary env dist ver arcName binName out).2).getLast? =
          some (.removedAll tmp)) ∧
      ((env.fetchRes ≠ none ∨ env.copyRes ≠ none) →
        ∀ p, FsEvent.binaryWritten p ∉ (FetchBinary env dist ver arcName binName out).2) ∧
      (∀ p, FsEvent.binaryWritten p ∈ (FetchBinary env dist ver arcName binName out).2 →
        env.fetchRes = none ∧ env.copyRes = none ∧ env.unpackRes = none ∧
          p = (if env.stat = .isDir
               then goPathJoin out (exeName env.goos
                 (if binName = "" then (if arcName = "" then dist else arcName) else binName))
               else out)) := by
  intro env dist ver arcName binName out hstat
  have hout : ∃ out1, FetchBinary env dist ver arcName binName out =
      fetchBinaryStaged env dist ver (if arcName = "" then dist else arcName) out1 ∧
      out1 = (if env.stat = .isDir
              then goPathJoin out (exeName env.goos
                (if binName = "" then (if arcName = "" then dist else arcName) else binName))
              else out) := by
    rcases hstat with h | h
    · exact ⟨out, by simp [FetchBinary, h], by simp [h]⟩
    · refine ⟨goPathJoin out (exeName env.goos
        (if binName = "" then (if arcName = "" then dist else arcName) else binName)),
        by simp [FetchBinary, h], by simp [h]⟩
  rcases hout with ⟨out1, hFB, hout1⟩
  rw [hFB]
  refine ⟨?_, ?_, ?_, ?_⟩
  · intro p hp
    exact fetchBinaryStaged_archive_writes env dist ver _ out1 p hp
  · intro tmp ht
    exact fetchBinaryStaged_cleanup env dist ver _ out1 tmp ht
  · intro hfail p
    exact fetchBinaryStaged_no_binary_write_on_download_failure env dist ver _ out1 hfail p
  · intro p hp
    have := fetchBinaryStaged_binary_write_iff_success env dist ver _ out1 p hp
    exact ⟨this.1, this.2.1, this.2.2.1, hout1 ▸ this.2.2.2⟩

/-- Witness for C7: a failing download into an existing directory writes
nothing to `outdir/ipfs` and still removes its temp dir last. -/
theorem c7_temp_staging_and_cleanup_witness :
    (FsEvent.binaryWritten "outdir/ipfs" ∉
      (FetchBinary ⟨"linux", "amd64", "/ipns/dist.ipfs.io", .isDir, .ok "/tmp/dl",
          none, some "fetch failed", none, none, none⟩
        "go-ipfs" "v0.7.0" "" "ipfs" "outdir").2) ∧
    ((FetchBinary ⟨"linux", "amd64", "/ipns/dist.ipfs.io", .isDir, .ok "/tmp/dl",
          none, some "fetch failed", none, none, none⟩
        "go-ipfs" "v0.7.0" "" "ipfs" "outdir").2).getLast? =
      some (.removedAll "/tmp/dl") := by
  refine ⟨?_, ?_⟩
  · exact (c7_temp_staging_and_cleanup _ "go-ipfs" "v0.7.0" "" "ipfs" "outdir"
      (Or.inr rfl)).2.2.1 (Or.inl (by simp)) "outdir/ipfs"
  · exact (c7_temp_staging_and_cleanup _ "go-ipfs" "v0.7.0" "" "ipfs" "outdir"
      (Or.inr rfl)).2.1 "/tmp/dl" (by decide)
